import Mathlib

/-!
Verification of the `JsonValidators` validation engine of
angular2-json-schema-form (file `json.validators.d.ts` and the specification
of its implementation).

The repository ships the TypeScript declaration file for the `JsonValidators`
class (its public factory signatures and doc comments); the function bodies
are not part of the shipped sources.  Each validator body below is therefore
modelled from the specification, following its stated semantics keyword by
keyword; the declaration-file doc comments fix the calling conventions
(argument shapes, default flags, "false to disable" behaviour).

Shallow embedding conventions:
  - JSON values are a closed tagged union `JsonValue`; JavaScript `undefined`
    is one of its constructors since the `required` keyword distinguishes it.
    Sequences and mappings use the mutually defined `JsonArray` and
    `JsonObject` spines so that all functions are structurally recursive.
  - A control is a holder of one current value.
  - A checker (`IValidatorFn`) is `control -> invert -> Option ErrorReport`;
    `none` means valid, `some report` carries the error report.
  - Numbers are rationals (`Rat`), which is faithful for every comparison the
    validators perform on finite JavaScript numbers.
  - Regular expressions are external to the library; patterns are modelled on
    the literal fragment (a pattern matches exactly its own text), which is
    enough to express the partial-match versus whole-string contract.
-/

mutual

/-- JSON-representable runtime values flowing through the validators,
plus JavaScript `undefined` (the `required` keyword distinguishes it). -/
inductive JsonValue where
  | str (s : String)
  | num (q : Rat)
  | bool (b : Bool)
  | null
  | undefined
  | arr (items : JsonArray)
  | obj (fields : JsonObject)

/-- An ordered sequence of JSON values. -/
inductive JsonArray where
  | nil
  | cons (head : JsonValue) (tail : JsonArray)

/-- A keyed mapping of JSON values (own enumerable properties, in order). -/
inductive JsonObject where
  | nil
  | cons (key : String) (val : JsonValue) (tail : JsonObject)

end

mutual

/-- Structural (deep) equality on JSON values. -/
def JsonValue.beq : JsonValue → JsonValue → Bool
  | .str a, .str b => a == b
  | .num a, .num b => a == b
  | .bool a, .bool b => a == b
  | .null, .null => true
  | .undefined, .undefined => true
  | .arr a, .arr b => JsonArray.beq a b
  | .obj a, .obj b => JsonObject.beq a b
  | _, _ => false

/-- Structural equality on JSON sequences. -/
def JsonArray.beq : JsonArray → JsonArray → Bool
  | .nil, .nil => true
  | .cons a as, .cons b bs => JsonValue.beq a b && JsonArray.beq as bs
  | _, _ => false

/-- Structural equality on JSON mappings. -/
def JsonObject.beq : JsonObject → JsonObject → Bool
  | .nil, .nil => true
  | .cons k v as, .cons l w bs => k == l && JsonValue.beq v w && JsonObject.beq as bs
  | _, _ => false

end

mutual

theorem jsonValue_beq_iff : ∀ a b : JsonValue, JsonValue.beq a b = true ↔ a = b
  | .str a, .str b => by simp [JsonValue.beq]
  | .num a, .num b => by simp [JsonValue.beq]
  | .bool a, .bool b => by simp [JsonValue.beq]
  | .null, .null => by simp [JsonValue.beq]
  | .undefined, .undefined => by simp [JsonValue.beq]
  | .arr a, .arr b => by simp [JsonValue.beq, jsonArray_beq_iff a b]
  | .obj a, .obj b => by simp [JsonValue.beq, jsonObject_beq_iff a b]
  | .str _, .num _ => by simp [JsonValue.beq]
  | .str _, .bool _ => by simp [JsonValue.beq]
  | .str _, .null => by simp [JsonValue.beq]
  | .str _, .undefined => by simp [JsonValue.beq]
  | .str _, .arr _ => by simp [JsonValue.beq]
  | .str _, .obj _ => by simp [JsonValue.beq]
  | .num _, .str _ => by simp [JsonValue.beq]
  | .num _, .bool _ => by simp [JsonValue.beq]
  | .num _, .null => by simp [JsonValue.beq]
  | .num _, .undefined => by simp [JsonValue.beq]
  | .num _, .arr _ => by simp [JsonValue.beq]
  | .num _, .obj _ => by simp [JsonValue.beq]
  | .bool _, .str _ => by simp [JsonValue.beq]
  | .bool _, .num _ => by simp [JsonValue.beq]
  | .bool _, .null => by simp [JsonValue.beq]
  | .bool _, .undefined => by simp [JsonValue.beq]
  | .bool _, .arr _ => by simp [JsonValue.beq]
  | .bool _, .obj _ => by simp [JsonValue.beq]
  | .null, .str _ => by simp [JsonValue.beq]
  | .null, .num _ => by simp [JsonValue.beq]
  | .null, .bool _ => by simp [JsonValue.beq]
  | .null, .undefined => by simp [JsonValue.beq]
  | .null, .arr _ => by simp [JsonValue.beq]
  | .null, .obj _ => by simp [JsonValue.beq]
  | .undefined, .str _ => by simp [JsonValue.beq]
  | .undefined, .num _ => by simp [JsonValue.beq]
  | .undefined, .bool _ => by simp [JsonValue.beq]
  | .undefined, .null => by simp [JsonValue.beq]
  | .undefined, .arr _ => by simp [JsonValue.beq]
  | .undefined, .obj _ => by simp [JsonValue.beq]
  | .arr _, .str _ => by simp [JsonValue.beq]
  | .arr _, .num _ => by simp [JsonValue.beq]
  | .arr _, .bool _ => by simp [JsonValue.beq]
  | .arr _, .null => by simp [JsonValue.beq]
  | .arr _, .undefined => by simp [JsonValue.beq]
  | .arr _, .obj _ => by simp [JsonValue.beq]
  | .obj _, .str _ => by simp [JsonValue.beq]
  | .obj _, .num _ => by simp [JsonValue.beq]
  | .obj _, .bool _ => by simp [JsonValue.beq]
  | .obj _, .null => by simp [JsonValue.beq]
  | .obj _, .undefined => by simp [JsonValue.beq]
  | .obj _, .arr _ => by simp [JsonValue.beq]

theorem jsonArray_beq_iff : ∀ a b : JsonArray, JsonArray.beq a b = true ↔ a = b
  | .nil, .nil => by simp [JsonArray.beq]
  | .cons a as, .cons b bs => by
      simp [JsonArray.beq, jsonValue_beq_iff a b, jsonArray_beq_iff as bs]
  | .nil, .cons _ _ => by simp [JsonArray.beq]
  | .cons _ _, .nil => by simp [JsonArray.beq]

theorem jsonObject_beq_iff : ∀ a b : JsonObject, JsonObject.beq a b = true ↔ a = b
  | .nil, .nil => by simp [JsonObject.beq]
  | .cons k v as, .cons l w bs => by
      simp only [JsonObject.beq, Bool.and_eq_true, beq_iff_eq,
        jsonValue_beq_iff v w, jsonObject_beq_iff as bs, JsonObject.cons.injEq]
      tauto
  | .nil, .cons _ _ _ => by simp [JsonObject.beq]
  | .cons _ _ _, .nil => by simp [JsonObject.beq]

end

instance : DecidableEq JsonValue :=
  fun a b => decidable_of_iff (JsonValue.beq a b = true) (jsonValue_beq_iff a b)

instance : DecidableEq JsonArray :=
  fun a b => decidable_of_iff (JsonArray.beq a b = true) (jsonArray_beq_iff a b)

instance : DecidableEq JsonObject :=
  fun a b => decidable_of_iff (JsonObject.beq a b = true) (jsonObject_beq_iff a b)

/-- Builds a JSON sequence from a Lean list of values. -/
def JsonArray.ofList : List JsonValue → JsonArray
  | [] => .nil
  | v :: t => .cons v (JsonArray.ofList t)

/-- Number of items in a JSON sequence. -/
def JsonArray.length : JsonArray → Nat
  | .nil => 0
  | .cons _ t => 1 + JsonArray.length t

/-- Whether a JSON sequence contains an item deep-equal to `v`. -/
def JsonArray.containsItem : JsonArray → JsonValue → Bool
  | .nil, _ => false
  | .cons a t, v => JsonValue.beq a v || JsonArray.containsItem t v

/-- Number of properties (own enumerable keys) of a JSON mapping. -/
def JsonObject.length : JsonObject → Nat
  | .nil => 0
  | .cons _ _ t => 1 + JsonObject.length t

/-- Modelled from the spec: a control is an opaque holder of exactly one
current value; validators read the value and never mutate the control. -/
structure AbstractControl where
  value : JsonValue
deriving DecidableEq

/-- An error report: a mapping from keyword name to a payload describing the
violation (required value, actual value, counts for combinators). -/
abbrev ErrorReport : Type := List (String × JsonValue)

/-- A checker: `(control, invert) -> ErrorReport | null`, with `none` playing
the role of `null` (valid) and `some` a non-null report. -/
abbrev IValidatorFn : Type := AbstractControl → Bool → Option ErrorReport

/-- Modelled from the spec: a value is absent/empty when it is `null`,
`undefined` or the empty string (the values the `required` keyword rejects). -/
def isEmptyValue : JsonValue → Bool
  | .null => true
  | .undefined => true
  | .str s => s == ""
  | _ => false

/-- A value is present when it is not absent/empty. -/
def hasValue (v : JsonValue) : Bool := !(isEmptyValue v)

/-- Uniform result shape shared by every keyword validator: the result is
`null` exactly when the computed validity differs from the invert flag
(valid and not inverted, or invalid and inverted). -/
def mkResult (isValid invert : Bool) (report : ErrorReport) : Option ErrorReport :=
  if isValid != invert then none else some report

/-! ### String-to-number / boolean / null coercion table

Modelled from the spec: `enum` and `const` match a value if it is
loosely equal to the target after numeric, boolean and null
string-coercion, realised as a small fully enumerated coercion table. -/

/-- Parses a non-empty all-digit character list as a natural number. -/
def parseDigits : List Char → Option Nat
  | [] => none
  | cs => if cs.all (fun c => c.isDigit) then
      some (cs.foldl (fun n c => 10 * n + (c.toNat - '0'.toNat)) 0)
    else none

/-- Splits a character list at the first dot, when present. -/
def splitDot : List Char → List Char × Option (List Char)
  | [] => ([], none)
  | c :: t =>
    if c = '.' then ([], some t)
    else
      let r := splitDot t
      (c :: r.1, r.2)

/-- Modelled from the spec: parses a decimal numeric string (optional minus
sign, digits, optional fractional digits) as a rational number; any other
string has no numeric interpretation. -/
def parseNumber (s : String) : Option Rat :=
  let p : Bool × List Char :=
    match s.data with
    | '-' :: t => (true, t)
    | cs => (false, cs)
  let signed : Rat → Rat := fun q => if p.1 then -q else q
  match splitDot p.2 with
  | (ip, none) => (parseDigits ip).map (fun n => signed n)
  | (ip, some fp) =>
    match parseDigits ip, parseDigits fp with
    | some a, some b => some (signed ((a : Rat) + (b : Rat) / ((10 : Rat) ^ fp.length)))
    | _, _ => none

/-- Modelled from the spec: loose equality used by `enum` and `const` —
structural equality, or the fully enumerated string coercions: a numeric
string equals the number it denotes, the strings "true"/"false" equal the
matching booleans, and the string "null" equals null. -/
def looseEq (a b : JsonValue) : Bool :=
  JsonValue.beq a b ||
    match a, b with
    | .str s, .num n | .num n, .str s => parseNumber s == some n
    | .str s, .bool t | .bool t, .str s => (s == "true" && t) || (s == "false" && !t)
    | .str s, .null | .null, .str s => s == "null"
    | _, _ => false

/-- Specification-side coercion table: the relation `looseEq` is meant to
decide, stated as an inductive relation enumerating every coercion pair. -/
inductive LooselyEqual : JsonValue → JsonValue → Prop
  | refl (v : JsonValue) : LooselyEqual v v
  | strNum (s : String) (n : Rat) : parseNumber s = some n →
      LooselyEqual (.str s) (.num n)
  | numStr (s : String) (n : Rat) : parseNumber s = some n →
      LooselyEqual (.num n) (.str s)
  | strTrue : LooselyEqual (.str "true") (.bool true)
  | trueStr : LooselyEqual (.bool true) (.str "true")
  | strFalse : LooselyEqual (.str "false") (.bool false)
  | falseStr : LooselyEqual (.bool false) (.str "false")
  | strNull : LooselyEqual (.str "null") .null
  | nullStr : LooselyEqual .null (.str "null")

/-! ### Literal pattern matching

The `pattern` validator delegates matching to the host regular-expression
engine, which is outside this library; patterns are modelled on the literal
fragment.  `leadsChars p s` states that `p` is an initial segment of `s`,
and `occursIn p s` that `p` occurs contiguously anywhere inside `s` —
the unanchored search a JavaScript `RegExp.test` performs. -/

/-- Whether `p` is an initial segment of `s`. -/
def leadsChars : List Char → List Char → Bool
  | [], _ => true
  | _ :: _, [] => false
  | a :: p, b :: s => a == b && leadsChars p s

/-- Whether `p` occurs contiguously anywhere inside `s`. -/
def occursIn (p : List Char) : List Char → Bool
  | [] => p.isEmpty
  | b :: t => leadsChars p (b :: t) || occursIn p t

/-! ### Keyword validity predicates

One Boolean predicate per JSON Schema keyword, shared by the validator
factories below and by the specification-side semantics.  Modelled from the
spec: absent/empty values are treated as valid for every keyword except
`required`; non-string values are valid for the string keywords and
non-numeric values for the numeric keywords (fail-open for inapplicable
types); property- and item-count keywords likewise only constrain mappings
and sequences. -/

/-- The five JSON Schema primitive type names. -/
inductive SchemaPrimitiveType where
  | string
  | number
  | integer
  | boolean
  | null
deriving DecidableEq

/-- Whether a value belongs to a primitive type; a number satisfies
`integer` only if it has no fractional component. -/
def isType (v : JsonValue) : SchemaPrimitiveType → Bool
  | .string => match v with | .str _ => true | _ => false
  | .number => match v with | .num _ => true | _ => false
  | .integer => match v with | .num q => q.den == 1 | _ => false
  | .boolean => match v with | .bool _ => true | _ => false
  | .null => match v with | .null => true | _ => false

/-- The `type` keyword accepts one type name or an array of type names. -/
inductive TypeArg where
  | one (t : SchemaPrimitiveType)
  | many (ts : List SchemaPrimitiveType)
deriving DecidableEq

/-- Validity under the `type` keyword. -/
def typeValid (arg : TypeArg) (v : JsonValue) : Bool :=
  isEmptyValue v ||
    match arg with
    | .one t => isType v t
    | .many ts => ts.any (isType v)

/-- Validity under the `enum` keyword. -/
def enumValid (allowedValues : List JsonValue) (v : JsonValue) : Bool :=
  isEmptyValue v || allowedValues.any (fun a => looseEq a v)

/-- Validity under the `const` keyword. -/
def constValid (requiredValue : JsonValue) (v : JsonValue) : Bool :=
  isEmptyValue v || looseEq requiredValue v

/-- Validity under the `minLength` keyword. -/
def minLengthValid (requiredLength : Nat) (v : JsonValue) : Bool :=
  isEmptyValue v ||
    match v with
    | .str s => decide (requiredLength ≤ s.length)
    | _ => true

/-- Validity under the `maxLength` keyword. -/
def maxLengthValid (requiredLength : Nat) (v : JsonValue) : Bool :=
  isEmptyValue v ||
    match v with
    | .str s => decide (s.length ≤ requiredLength)
    | _ => true

/-- Validity under the `pattern` keyword: by default the pattern may match
anywhere in the string; with `wholeString` it must match the entire string. -/
def patternValid (p : String) (wholeString : Bool) (v : JsonValue) : Bool :=
  isEmptyValue v ||
    match v with
    | .str s => if wholeString then s == p else occursIn p.data s.data
    | _ => true

/-- The enumerated format tags the `format` validator dispatches on. -/
def knownFormats : List String :=
  ["date-time", "email", "hostname", "ipv4", "ipv6", "uri", "url", "color"]

/-- Modelled from the spec: one dedicated recognizer per enumerated format
tag.  The concrete recognizers are host regular expressions outside this
library; they are modelled as simple executable stand-ins, and no claim
depends on their behaviour on any particular string. -/
def formatTest (tag : String) (s : String) : Bool :=
  match tag with
  | "date-time" => s.data.contains '-' && s.data.contains ':'
  | "email" => s.data.contains '@' && s.data.contains '.'
  | "hostname" => s.data.all (fun c => c.isAlphanum || c = '-' || c = '.')
  | "ipv4" =>
      (s.data.filter (fun c => c = '.')).length == 3 &&
        s.data.all (fun c => c.isDigit || c = '.')
  | "ipv6" => s.data.contains ':'
  | "uri" => s.data.contains ':'
  | "url" => occursIn "://".data s.data
  | "color" =>
      match s.data with
      | '#' :: rest => rest.all (fun c => c.isDigit || ('a' ≤ c && c ≤ 'f') || ('A' ≤ c && c ≤ 'F'))
      | _ => false
  | _ => true

/-- Validity under the `format` keyword: a recognized tag checks string
values with its recognizer; an unrecognized tag is treated as always valid
(fail open) rather than erroring. -/
def formatValid (requiredFormat : String) (v : JsonValue) : Bool :=
  if knownFormats.contains requiredFormat then
    isEmptyValue v ||
      match v with
      | .str s => formatTest requiredFormat s
      | _ => true
  else true

/-- Validity under the `minimum` / `exclusiveMinimum` keywords. -/
def minimumValid (minimumValue : Rat) (exclusiveMin : Bool) (v : JsonValue) : Bool :=
  match v with
  | .num q => if exclusiveMin then decide (minimumValue < q) else decide (minimumValue ≤ q)
  | _ => true

/-- Validity under the `maximum` / `exclusiveMaximum` keywords. -/
def maximumValid (maximumValue : Rat) (exclusiveMax : Bool) (v : JsonValue) : Bool :=
  match v with
  | .num q => if exclusiveMax then decide (q < maximumValue) else decide (q ≤ maximumValue)
  | _ => true

/-- Validity under the `multipleOf` keyword: a numeric value must be an
integral multiple of the given number. -/
def multipleOfValid (multipleOfValue : Rat) (v : JsonValue) : Bool :=
  match v with
  | .num q => multipleOfValue != 0 && (q / multipleOfValue).den == 1
  | _ => true

/-- Validity under the `minProperties` keyword. -/
def minPropertiesValid (requiredProperties : Nat) (v : JsonValue) : Bool :=
  match v with
  | .obj fields => decide (requiredProperties ≤ fields.length)
  | _ => true

/-- Validity under the `maxProperties` keyword. -/
def maxPropertiesValid (requiredProperties : Nat) (v : JsonValue) : Bool :=
  match v with
  | .obj fields => decide (fields.length ≤ requiredProperties)
  | _ => true

/-- Validity under the `minItems` keyword. -/
def minItemsValid (requiredItems : Nat) (v : JsonValue) : Bool :=
  match v with
  | .arr items => decide (requiredItems ≤ items.length)
  | _ => true

/-- Validity under the `maxItems` keyword. -/
def maxItemsValid (requiredItems : Nat) (v : JsonValue) : Bool :=
  match v with
  | .arr items => decide (items.length ≤ requiredItems)
  | _ => true

/-- Whether every item of a JSON sequence is distinct from every other,
under deep equality. -/
def allItemsDistinct : JsonArray → Bool
  | .nil => true
  | .cons a t => !(JsonArray.containsItem t a) && allItemsDistinct t

/-- Validity under the `uniqueItems` keyword (the enabled form): pairwise
deep-distinct items of a sequence-valued control. -/
def uniqueItemsValid (v : JsonValue) : Bool :=
  match v with
  | .arr items => allItemsDistinct items
  | _ => true

/-! ### The JsonValidators factories

Each factory mirrors one static member of the `JsonValidators` class from
`json.validators.d.ts`.  Bodies are modelled from the spec: every returned
checker computes its keyword predicate and feeds it through the uniform
invert protocol (`mkResult`); reports are keyed by keyword name and carry
required and actual values. -/

/-- No-op validator, included for backward compatibility; also the checker
returned by a factory whose keyword is disabled ("false to disable").  The
original takes only a control, so the invert flag is ignored. -/
def JsonValidators.nullValidator : IValidatorFn := fun _ _ => none

/-- The checker enforcing the `required` keyword: invalid exactly when the
control's value is absent (empty string, null or undefined). -/
def JsonValidators.requiredChecker : IValidatorFn := fun control invert =>
  mkResult (hasValue control.value) invert [("required", .bool true)]

/-- The checker `required` returns for a boolean/absent argument: the
required-checker for `true` or no argument, the disabled no-op validator
for `false` ("false to disable", per the declaration file). -/
def JsonValidators.requiredValidatorFor (input : Option Bool) : IValidatorFn :=
  if input.getD true then JsonValidators.requiredChecker else JsonValidators.nullValidator

/-- Argument shape of the overloaded `required` validator: either a control
(old Angular behaviour, executes immediately) or an optional boolean. -/
inductive RequiredArg where
  | control (c : AbstractControl)
  | flag (input : Option Bool)

/-- Result shape of the overloaded `required` validator: an immediate
validation result, or the unexecuted checker function. -/
inductive RequiredResult where
  | report (r : Option ErrorReport)
  | validator (f : IValidatorFn)

/-- Modelled from the spec: `required` is overloaded by argument shape —
a boolean or absent argument returns the checker itself (without executing
it), while a control argument executes the required check immediately. -/
def JsonValidators.required : RequiredArg → RequiredResult
  | .flag input => .validator (JsonValidators.requiredValidatorFor input)
  | .control c => .report (JsonValidators.requiredChecker c false)

/-- Modelled from the spec: the `type` validator. -/
def JsonValidators.type (requiredType : TypeArg) : IValidatorFn := fun control invert =>
  mkResult (typeValid requiredType control.value) invert
    [("type", control.value)]

/-- Modelled from the spec: the `enum` validator, with the string coercion
table of `looseEq`. -/
def JsonValidators.enum (allowedValues : List JsonValue) : IValidatorFn := fun control invert =>
  mkResult (enumValid allowedValues control.value) invert
    [("enum", .obj (.cons "allowedValues" (.arr (JsonArray.ofList allowedValues))
        (.cons "currentValue" control.value .nil)))]

/-- Modelled from the spec: the `const` validator, same coercion rule as
`enum` with a single required value. -/
def JsonValidators.const (requiredValue : JsonValue) : IValidatorFn := fun control invert =>
  mkResult (constValid requiredValue control.value) invert
    [("const", requiredValue)]

/-- Modelled from the spec: the `minLength` validator; non-string values are
valid. -/
def JsonValidators.minLength (requiredLength : Nat) : IValidatorFn := fun control invert =>
  mkResult (minLengthValid requiredLength control.value) invert
    [("minLength", .num (requiredLength : Rat))]

/-- Modelled from the spec: the `maxLength` validator; non-string values are
valid. -/
def JsonValidators.maxLength (requiredLength : Nat) : IValidatorFn := fun control invert =>
  mkResult (maxLengthValid requiredLength control.value) invert
    [("maxLength", .num (requiredLength : Rat))]

/-- Modelled from the spec: the `pattern` validator; by default the pattern
may match anywhere in the string (a partial match), and passing `true` as
the second parameter restores whole-string anchoring. -/
def JsonValidators.pattern (p : String) (wholeString : Bool) : IValidatorFn :=
  fun control invert =>
    mkResult (patternValid p wholeString control.value) invert
      [("pattern", .obj (.cons "requiredPattern" (.str p)
          (.cons "currentValue" control.value .nil)))]

/-- Modelled from the spec: the `format` validator; dispatches on the
enumerated format tags and treats unknown tags as always valid. -/
def JsonValidators.format (requiredFormat : String) : IValidatorFn := fun control invert =>
  mkResult (formatValid requiredFormat control.value) invert
    [("format", .obj (.cons "requiredFormat" (.str requiredFormat)
        (.cons "currentValue" control.value .nil)))]

/-- Modelled from the spec: the `minimum` validator; non-numeric values are
valid. -/
def JsonValidators.minimum (minimumValue : Rat) (exclusiveMin : Bool) : IValidatorFn :=
  fun control invert =>
    mkResult (minimumValid minimumValue exclusiveMin control.value) invert
      [("minimum", .num minimumValue)]

/-- The `exclusiveMinimum` validator. -/
def JsonValidators.exclusiveMinimum (exclusiveMinimumValue : Rat) : IValidatorFn :=
  JsonValidators.minimum exclusiveMinimumValue true

/-- Modelled from the spec: the `maximum` validator; non-numeric values are
valid. -/
def JsonValidators.maximum (maximumValue : Rat) (exclusiveMax : Bool) : IValidatorFn :=
  fun control invert =>
    mkResult (maximumValid maximumValue exclusiveMax control.value) invert
      [("maximum", .num maximumValue)]

/-- The `exclusiveMaximum` validator. -/
def JsonValidators.exclusiveMaximum (exclusiveMaximumValue : Rat) : IValidatorFn :=
  JsonValidators.maximum exclusiveMaximumValue true

/-- Modelled from the spec: the `multipleOf` validator. -/
def JsonValidators.multipleOf (multipleOfValue : Rat) : IValidatorFn := fun control invert =>
  mkResult (multipleOfValid multipleOfValue control.value) invert
    [("multipleOf", .num multipleOfValue)]

/-- Modelled from the spec: the `minProperties` validator. -/
def JsonValidators.minProperties (requiredProperties : Nat) : IValidatorFn :=
  fun control invert =>
    mkResult (minPropertiesValid requiredProperties control.value) invert
      [("minProperties", .num (requiredProperties : Rat))]

/-- Modelled from the spec: the `maxProperties` validator. -/
def JsonValidators.maxProperties (requiredProperties : Nat) : IValidatorFn :=
  fun control invert =>
    mkResult (maxPropertiesValid requiredProperties control.value) invert
      [("maxProperties", .num (requiredProperties : Rat))]

/-- Modelled from the spec: the `minItems` validator. -/
def JsonValidators.minItems (requiredItems : Nat) : IValidatorFn := fun control invert =>
  mkResult (minItemsValid requiredItems control.value) invert
    [("minItems", .num (requiredItems : Rat))]

/-- Modelled from the spec: the `maxItems` validator. -/
def JsonValidators.maxItems (requiredItems : Nat) : IValidatorFn := fun control invert =>
  mkResult (maxItemsValid requiredItems control.value) invert
    [("maxItems", .num (requiredItems : Rat))]

/-- Modelled from the spec: the `uniqueItems` validator; `true` to validate
pairwise deep-distinctness, `false` to disable (returning the no-op
validator, per the declaration file's "false to disable"). -/
def JsonValidators.uniqueItems (unique : Bool) : IValidatorFn :=
  if unique then
    fun control invert =>
      mkResult (uniqueItemsValid control.value) invert
        [("uniqueItems", .bool true)]
  else JsonValidators.nullValidator

/-! ### Combinators -/

/-- Executes every checker of a list on a control (invert off) and collects
the individual results in order. -/
def execValidators (validators : List IValidatorFn) (control : AbstractControl) :
    List (Option ErrorReport) :=
  validators.map (fun v => v control false)

/-- The reports of the failing checkers, in order. -/
def failedReports (results : List (Option ErrorReport)) : List ErrorReport :=
  results.filterMap id

/-- Merges two reports by union of keys; keys already present are kept and
not overwritten by later ones. -/
def mergeObjects (a b : ErrorReport) : ErrorReport :=
  List.append a (b.filter (fun kv => !(a.any (fun kv2 => kv2.1 == kv.1))))

/-- Merges a list of reports by left-to-right union of keys. -/
def mergeReports (reports : List ErrorReport) : ErrorReport :=
  reports.foldl mergeObjects []

/-- Number of checkers of a list that accept the control. -/
def validCount (validators : List IValidatorFn) (control : AbstractControl) : Nat :=
  (validators.filter (fun v => (v control false).isNone)).length

/-- The indices (in order) of the checkers that accept the control, as JSON
numbers, used by the `oneOf` report to say which branches passed. -/
def validIndices (validators : List IValidatorFn) (control : AbstractControl) : JsonArray :=
  JsonArray.ofList
    ((validators.enum.filter (fun p => (p.2 control false).isNone)).map
      (fun p => JsonValue.num (p.1 : Rat)))

/-- Modelled from the spec: `composeAllOf` is valid iff every checker is
valid; on failure the report is the union of the failing checkers' reports
plus a synthesizing `allOf` entry. -/
def JsonValidators.composeAllOf (validators : List IValidatorFn) : IValidatorFn :=
  fun control invert =>
    mkResult (validators.all (fun v => (v control false).isNone)) invert
      (List.append (mergeReports (failedReports (execValidators validators control)))
        [("allOf", .bool (!invert))])

/-- Modelled from the spec: `composeAnyOf` is valid iff at least one checker
is valid; when all are invalid the report unions all reports plus a
synthesizing `anyOf` entry. -/
def JsonValidators.composeAnyOf (validators : List IValidatorFn) : IValidatorFn :=
  fun control invert =>
    mkResult (validators.any (fun v => (v control false).isNone)) invert
      (List.append (mergeReports (failedReports (execValidators validators control)))
        [("anyOf", .bool (!invert))])

/-- Modelled from the spec: `composeOneOf` is valid iff exactly one checker
is valid; otherwise the report carries the sub-reports plus a synthesizing
`oneOf` entry describing how many checkers passed and which ones. -/
def JsonValidators.composeOneOf (validators : List IValidatorFn) : IValidatorFn :=
  fun control invert =>
    mkResult (validCount validators control == 1) invert
      (List.append (mergeReports (failedReports (execValidators validators control)))
        [("oneOf", .obj (.cons "validCount" (.num (validCount validators control : Rat))
            (.cons "validIndices" (.arr (validIndices validators control)) .nil)))])

/-- Modelled from the spec: `composeNot` inverts its single checker — valid
iff the inner checker, invoked with the invert flag flipped, returns null;
a failure is reported under a synthetic `not` key that replaces the inner
report. -/
def JsonValidators.composeNot (validator : IValidatorFn) : IValidatorFn :=
  fun control invert =>
    match validator control (!invert) with
    | none => none
    | some _ => some [("not", .bool (!invert))]

/-- Modelled from the spec: `compose` is an alias of `composeAllOf` retained
for naming compatibility, differing only in the phrasing of its synthetic
report entry. -/
def JsonValidators.compose (validators : List IValidatorFn) : IValidatorFn :=
  fun control invert =>
    mkResult (validators.all (fun v => (v control false).isNone)) invert
      (List.append (mergeReports (failedReports (execValidators validators control)))
        [("compose", .bool (!invert))])

/-! ### Convenience aliases

Modelled from the spec: `min`, `max`, `requiredTrue` and `email` are
convenience aliases preserved for drop-in compatibility with a conventional
forms-validators API, implemented by delegating to `minimum`, `maximum`,
`const(true)` and `format('email')` respectively.  Per the declaration file
`min` and `max` are factories while `requiredTrue` and `email` take a
control directly. -/

/-- The `min` alias: delegates to `minimum` (inclusive). -/
def JsonValidators.min (minValue : Rat) : AbstractControl → Option ErrorReport :=
  fun control => JsonValidators.minimum minValue false control false

/-- The `max` alias: delegates to `maximum` (inclusive). -/
def JsonValidators.max (maxValue : Rat) : AbstractControl → Option ErrorReport :=
  fun control => JsonValidators.maximum maxValue false control false

/-- The `requiredTrue` alias: delegates to `const(true)`. -/
def JsonValidators.requiredTrue : AbstractControl → Option ErrorReport :=
  fun control => JsonValidators.const (.bool true) control false

/-- The `email` alias: delegates to `format('email')`. -/
def JsonValidators.email : AbstractControl → Option ErrorReport :=
  fun control => JsonValidators.format "email" control false

/-! ### The syntax of checker expressions

`CheckerSpec` enumerates every checker the keyword validator factories and
the combinators can produce (the `dependencies`, `contains` and async
combinator surfaces are documented as incomplete by the source and are not
part of this syntax).  `interp` builds the checker a given expression
denotes; `holds` is the specification-side validity semantics; `enabled`
states that no sub-checker is a disabled ("false to disable") form. -/

inductive CheckerSpec where
  | required (input : Option Bool)
  | typeCheck (arg : TypeArg)
  | enum (vals : List JsonValue)
  | const (v : JsonValue)
  | minLength (n : Nat)
  | maxLength (n : Nat)
  | pattern (p : String) (whole : Bool)
  | format (tag : String)
  | minimum (m : Rat) (excl : Bool)
  | maximum (m : Rat) (excl : Bool)
  | multipleOf (m : Rat)
  | minProperties (n : Nat)
  | maxProperties (n : Nat)
  | minItems (n : Nat)
  | maxItems (n : Nat)
  | uniqueItems (unique : Bool)
  | allOf (l : List CheckerSpec)
  | anyOf (l : List CheckerSpec)
  | oneOf (l : List CheckerSpec)
  | notOf (s : CheckerSpec)
  | comp (l : List CheckerSpec)

mutual

/-- The checker denoted by a checker expression: each leaf is the checker
returned by the corresponding `JsonValidators` factory, and each combinator
node the composition of its sub-checkers. -/
def CheckerSpec.interp : CheckerSpec → IValidatorFn
  | .required input => JsonValidators.requiredValidatorFor input
  | .typeCheck arg => JsonValidators.type arg
  | .enum vals => JsonValidators.enum vals
  | .const v => JsonValidators.const v
  | .minLength n => JsonValidators.minLength n
  | .maxLength n => JsonValidators.maxLength n
  | .pattern p whole => JsonValidators.pattern p whole
  | .format tag => JsonValidators.format tag
  | .minimum m excl => JsonValidators.minimum m excl
  | .maximum m excl => JsonValidators.maximum m excl
  | .multipleOf m => JsonValidators.multipleOf m
  | .minProperties n => JsonValidators.minProperties n
  | .maxProperties n => JsonValidators.maxProperties n
  | .minItems n => JsonValidators.minItems n
  | .maxItems n => JsonValidators.maxItems n
  | .uniqueItems unique => JsonValidators.uniqueItems unique
  | .allOf l => JsonValidators.composeAllOf (CheckerSpec.interpList l)
  | .anyOf l => JsonValidators.composeAnyOf (CheckerSpec.interpList l)
  | .oneOf l => JsonValidators.composeOneOf (CheckerSpec.interpList l)
  | .notOf s => JsonValidators.composeNot (CheckerSpec.interp s)
  | .comp l => JsonValidators.compose (CheckerSpec.interpList l)

/-- The checkers denoted by a list of checker expressions, in order. -/
def CheckerSpec.interpList : List CheckerSpec → List IValidatorFn
  | [] => []
  | s :: t => CheckerSpec.interp s :: CheckerSpec.interpList t

end

mutual

/-- Specification-side validity: whether the checker denoted by `s` accepts
the control under the given invert flag — the keyword predicate (flipped by
invert) at the leaves, and the `allOf`/`anyOf`/`oneOf`/`not` counting logic
at the combinators; disabled forms accept everything. -/
def CheckerSpec.holds : CheckerSpec → AbstractControl → Bool → Bool
  | .required input, x, invert =>
      if input.getD true then hasValue x.value != invert else true
  | .typeCheck arg, x, invert => typeValid arg x.value != invert
  | .enum vals, x, invert => enumValid vals x.value != invert
  | .const v, x, invert => constValid v x.value != invert
  | .minLength n, x, invert => minLengthValid n x.value != invert
  | .maxLength n, x, invert => maxLengthValid n x.value != invert
  | .pattern p whole, x, invert => patternValid p whole x.value != invert
  | .format tag, x, invert => formatValid tag x.value != invert
  | .minimum m excl, x, invert => minimumValid m excl x.value != invert
  | .maximum m excl, x, invert => maximumValid m excl x.value != invert
  | .multipleOf m, x, invert => multipleOfValid m x.value != invert
  | .minProperties n, x, invert => minPropertiesValid n x.value != invert
  | .maxProperties n, x, invert => maxPropertiesValid n x.value != invert
  | .minItems n, x, invert => minItemsValid n x.value != invert
  | .maxItems n, x, invert => maxItemsValid n x.value != invert
  | .uniqueItems unique, x, invert =>
      if unique then uniqueItemsValid x.value != invert else true
  | .allOf l, x, invert => ((CheckerSpec.holdsList l x).all id) != invert
  | .anyOf l, x, invert => ((CheckerSpec.holdsList l x).any id) != invert
  | .oneOf l, x, invert => ((CheckerSpec.holdsList l x).countP id == 1) != invert
  | .notOf s, x, invert => CheckerSpec.holds s x (!invert)
  | .comp l, x, invert => ((CheckerSpec.holdsList l x).all id) != invert

/-- Validity of each expression of a list on a control, invert off. -/
def CheckerSpec.holdsList : List CheckerSpec → AbstractControl → List Bool
  | [], _ => []
  | s :: t, x => CheckerSpec.holds s x false :: CheckerSpec.holdsList t x

end

mutual

/-- No disabled ("false to disable") form occurs in the expression. -/
def CheckerSpec.enabled : CheckerSpec → Bool
  | .required input => input.getD true
  | .uniqueItems unique => unique
  | .allOf l => CheckerSpec.enabledList l
  | .anyOf l => CheckerSpec.enabledList l
  | .oneOf l => CheckerSpec.enabledList l
  | .comp l => CheckerSpec.enabledList l
  | .notOf s => CheckerSpec.enabled s
  | _ => true

/-- Every expression of the list is enabled. -/
def CheckerSpec.enabledList : List CheckerSpec → Bool
  | [] => true
  | s :: t => CheckerSpec.enabled s && CheckerSpec.enabledList t

end

/-! ### Helper lemmas -/

theorem mkResult_eq_none_iff (isValid invert : Bool) (r : ErrorReport) :
    mkResult isValid invert r = none ↔ isValid ≠ invert := by
  cases isValid <;> cases invert <;> simp [mkResult]

theorem mkResult_eq_some {isValid invert : Bool} {r r' : ErrorReport}
    (h : mkResult isValid invert r = some r') : r' = r := by
  unfold mkResult at h
  split at h
  · exact absurd h (by simp)
  · injection h with h
    exact h.symm

theorem leadsChars_iff (p : List Char) : ∀ s : List Char,
    leadsChars p s = true ↔ ∃ t, s = p ++ t := by
  induction p with
  | nil => intro s; simp [leadsChars]
  | cons a p ih =>
    intro s
    cases s with
    | nil => simp [leadsChars]
    | cons b s =>
      simp only [leadsChars, Bool.and_eq_true, beq_iff_eq, ih, List.cons_append,
        List.cons.injEq]
      constructor
      · rintro ⟨rfl, t, rfl⟩
        exact ⟨t, rfl, rfl⟩
      · rintro ⟨t, rfl, rfl⟩
        exact ⟨rfl, t, rfl⟩

theorem occursIn_iff (p : List Char) : ∀ s : List Char,
    occursIn p s = true ↔ ∃ l r, s = l ++ p ++ r := by
  intro s
  induction s with
  | nil =>
    simp only [occursIn, List.isEmpty_iff]
    constructor
    · rintro rfl
      exact ⟨[], [], rfl⟩
    · rintro ⟨l, r, h⟩
      rcases List.append_eq_nil.mp h.symm with ⟨h1, h2⟩
      exact (List.append_eq_nil.mp h1).2
  | cons b t ih =>
    simp only [occursIn, Bool.or_eq_true, leadsChars_iff, ih]
    constructor
    · rintro (⟨u, hu⟩ | ⟨l, r, hlr⟩)
      · exact ⟨[], u, by simpa using hu⟩
      · exact ⟨b :: l, r, by simp [hlr]⟩
    · rintro ⟨l, r, h⟩
      cases l with
      | nil =>
        left
        exact ⟨r, by simpa using h⟩
      | cons c l =>
        right
        rcases List.cons.injEq .. ▸ h with ⟨rfl, h2⟩
        exact ⟨l, r, h2⟩

theorem looseEq_iff (a b : JsonValue) : looseEq a b = true ↔ LooselyEqual a b := by
  constructor
  · intro h
    cases a <;> cases b <;> simp [looseEq, JsonValue.beq] at h
    all_goals first
      | exact .strNum _ _ h
      | exact .numStr _ _ h
      | (rcases h with ⟨rfl, rfl⟩ | ⟨rfl, rfl⟩ <;>
          first | exact .strTrue | exact .strFalse | exact .trueStr | exact .falseStr)
      | (subst h; first | exact .strNull | exact .nullStr | exact .refl _)
      | (rw [jsonArray_beq_iff] at h; subst h; exact .refl _)
      | (rw [jsonObject_beq_iff] at h; subst h; exact .refl _)
      | exact .refl _
  · intro h
    cases h <;> simp [looseEq, jsonValue_beq_iff] <;> try assumption

theorem filter_length_eq_one_iff {α : Type} (p : α → Bool) :
    ∀ l : List α, (l.filter p).length = 1 ↔ ∃! i : Fin l.length, p (l.get i) = true := by
  intro l
  induction l with
  | nil =>
    constructor
    · intro h
      simp at h
    · rintro ⟨i, -, -⟩
      exact i.elim0
  | cons a t ih =>
    cases hpa : p a with
    | true =>
      rw [List.filter_cons_of_pos hpa, List.length_cons]
      constructor
      · intro h
        have h0 : (t.filter p).length = 0 := by omega
        have ht : ∀ x ∈ t, ¬ p x = true := by
          intro x hx hc
          have hmem : x ∈ t.filter p := List.mem_filter.mpr ⟨hx, hc⟩
          rw [List.length_eq_zero.mp h0] at hmem
          exact absurd hmem (List.not_mem_nil x)
        refine ⟨⟨0, Nat.succ_pos _⟩, by simpa using hpa, ?_⟩
        rintro ⟨j, hj⟩ hpj
        cases j with
        | zero => rfl
        | succ k =>
          exfalso
          have hk : k < t.length := Nat.lt_of_succ_lt_succ hj
          exact ht (t.get ⟨k, hk⟩) (List.get_mem t k hk) (by simpa using hpj)
      · rintro ⟨⟨i, hi⟩, hpi, huniq⟩
        have h0 : (t.filter p).length = 0 := by
          rw [List.length_eq_zero]
          by_contra hne
          rcases List.exists_mem_of_ne_nil _ hne with ⟨x, hx⟩
          have hxt := (List.mem_filter.mp hx).1
          have hpx := (List.mem_filter.mp hx).2
          rcases List.mem_iff_get.mp hxt with ⟨⟨k, hk⟩, rfl⟩
          have hz : (⟨0, Nat.succ_pos _⟩ : Fin (t.length + 1)) = ⟨i, hi⟩ :=
            huniq ⟨0, Nat.succ_pos _⟩ (by simpa using hpa)
          have hs : (⟨k + 1, Nat.succ_lt_succ hk⟩ : Fin (t.length + 1)) = ⟨i, hi⟩ :=
            huniq ⟨k + 1, Nat.succ_lt_succ hk⟩ (by simpa using hpx)
          rw [← hz] at hs
          exact absurd (congrArg Fin.val hs) (by simp)
        omega
    | false =>
      rw [List.filter_cons_of_neg (by simp [hpa]), ih]
      constructor
      · rintro ⟨j, hpj, hu⟩
        refine ⟨j.succ, by simpa using hpj, ?_⟩
        rintro ⟨m, hm⟩ hpm
        cases m with
        | zero => exact absurd (by simpa using hpm) (by simp [hpa])
        | succ k =>
          have hk : k < t.length := Nat.lt_of_succ_lt_succ hm
          have hjk := hu ⟨k, hk⟩ (by simpa using hpm)
          apply Fin.ext
          simpa using congrArg Fin.val hjk
      · rintro ⟨⟨m, hm⟩, hpm, hu⟩
        cases m with
        | zero => exact absurd (by simpa using hpm) (by simp [hpa])
        | succ k =>
          have hk : k < t.length := Nat.lt_of_succ_lt_succ hm
          refine ⟨⟨k, hk⟩, by simpa using hpm, ?_⟩
          rintro ⟨n, hn⟩ hpn
          have := hu ⟨n + 1, Nat.succ_lt_succ hn⟩ (by simpa using hpn)
          apply Fin.ext
          simpa using congrArg Fin.val this

theorem bool_eq_of_iff {α : Type} {o : Option α} {b : Bool}
    (h : o = none ↔ b = true) : o.isNone = b := by
  cases o <;> cases b <;> simp_all

theorem all_congr_mem {α : Type} {p q : α → Bool} :
    ∀ {l : List α}, (∀ a ∈ l, p a = q a) → l.all p = l.all q := by
  intro l h
  induction l with
  | nil => rfl
  | cons a t ih =>
    simp only [List.all_cons, h a (List.mem_cons_self a t),
      ih (fun b hb => h b (List.mem_cons_of_mem a hb))]

theorem any_congr_mem {α : Type} {p q : α → Bool} :
    ∀ {l : List α}, (∀ a ∈ l, p a = q a) → l.any p = l.any q := by
  intro l h
  induction l with
  | nil => rfl
  | cons a t ih =>
    simp only [List.any_cons, h a (List.mem_cons_self a t),
      ih (fun b hb => h b (List.mem_cons_of_mem a hb))]

theorem countP_congr_mem {α : Type} {p q : α → Bool} :
    ∀ {l : List α}, (∀ a ∈ l, p a = q a) → l.countP p = l.countP q := by
  intro l h
  induction l with
  | nil => rfl
  | cons a t ih =>
    rw [List.countP_cons, List.countP_cons, h a (List.mem_cons_self a t),
      ih (fun b hb => h b (List.mem_cons_of_mem a hb))]

theorem interpList_eq_map (l : List CheckerSpec) :
    CheckerSpec.interpList l = l.map CheckerSpec.interp := by
  induction l with
  | nil => simp [CheckerSpec.interpList]
  | cons s t ih => simp [CheckerSpec.interpList, ih]

theorem holdsList_eq_map (l : List CheckerSpec) (x : AbstractControl) :
    CheckerSpec.holdsList l x = l.map (fun s => CheckerSpec.holds s x false) := by
  induction l with
  | nil => simp [CheckerSpec.holdsList]
  | cons s t ih => simp [CheckerSpec.holdsList, ih]

theorem enabledList_eq_all (l : List CheckerSpec) :
    CheckerSpec.enabledList l = l.all CheckerSpec.enabled := by
  induction l with
  | nil => simp [CheckerSpec.enabledList]
  | cons s t ih => simp [CheckerSpec.enabledList, ih]

theorem map_all_eq {α β : Type} (l : List α) (f : α → β) (p : β → Bool) :
    (l.map f).all p = l.all (fun a => p (f a)) := by
  induction l with
  | nil => rfl
  | cons a t ih => simp [ih]

theorem map_any_eq {α β : Type} (l : List α) (f : α → β) (p : β → Bool) :
    (l.map f).any p = l.any (fun a => p (f a)) := by
  induction l with
  | nil => rfl
  | cons a t ih => simp [ih]

theorem map_countP_eq {α β : Type} (l : List α) (f : α → β) (p : β → Bool) :
    (l.map f).countP p = l.countP (fun a => p (f a)) := by
  induction l with
  | nil => rfl
  | cons a t ih => simp [List.countP_cons, ih]

theorem interp_holds : ∀ (s : CheckerSpec) (x : AbstractControl) (invert : Bool),
    (CheckerSpec.interp s x invert = none ↔ CheckerSpec.holds s x invert = true)
  | s, x, invert => by
    cases s with
    | required input =>
      cases input with
      | none =>
        simp [CheckerSpec.interp, CheckerSpec.holds, JsonValidators.requiredValidatorFor,
          JsonValidators.requiredChecker, mkResult_eq_none_iff, bne_iff_ne]
      | some b =>
        cases b <;>
          simp [CheckerSpec.interp, CheckerSpec.holds, JsonValidators.requiredValidatorFor,
            JsonValidators.requiredChecker, JsonValidators.nullValidator,
            mkResult_eq_none_iff, bne_iff_ne]
    | typeCheck arg =>
      simp [CheckerSpec.interp, CheckerSpec.holds, JsonValidators.type,
        mkResult_eq_none_iff, bne_iff_ne]
    | enum vals =>
      simp [CheckerSpec.interp, CheckerSpec.holds, JsonValidators.enum,
        mkResult_eq_none_iff, bne_iff_ne]
    | const v =>
      simp [CheckerSpec.interp, CheckerSpec.holds, JsonValidators.const,
        mkResult_eq_none_iff, bne_iff_ne]
    | minLength n =>
      simp [CheckerSpec.interp, CheckerSpec.holds, JsonValidators.minLength,
        mkResult_eq_none_iff, bne_iff_ne]
    | maxLength n =>
      simp [CheckerSpec.interp, CheckerSpec.holds, JsonValidators.maxLength,
        mkResult_eq_none_iff, bne_iff_ne]
    | pattern p whole =>
      simp [CheckerSpec.interp, CheckerSpec.holds, JsonValidators.pattern,
        mkResult_eq_none_iff, bne_iff_ne]
    | format tag =>
      simp [CheckerSpec.interp, CheckerSpec.holds, JsonValidators.format,
        mkResult_eq_none_iff, bne_iff_ne]
    | minimum m excl =>
      simp [CheckerSpec.interp, CheckerSpec.holds, JsonValidators.minimum,
        mkResult_eq_none_iff, bne_iff_ne]
    | maximum m excl =>
      simp [CheckerSpec.interp, CheckerSpec.holds, JsonValidators.maximum,
        mkResult_eq_none_iff, bne_iff_ne]
    | multipleOf m =>
      simp [CheckerSpec.interp, CheckerSpec.holds, JsonValidators.multipleOf,
        mkResult_eq_none_iff, bne_iff_ne]
    | minProperties n =>
      simp [CheckerSpec.interp, CheckerSpec.holds, JsonValidators.minProperties,
        mkResult_eq_none_iff, bne_iff_ne]
    | maxProperties n =>
      simp [CheckerSpec.interp, CheckerSpec.holds, JsonValidators.maxProperties,
        mkResult_eq_none_iff, bne_iff_ne]
    | minItems n =>
      simp [CheckerSpec.interp, CheckerSpec.holds, JsonValidators.minItems,
        mkResult_eq_none_iff, bne_iff_ne]
    | maxItems n =>
      simp [CheckerSpec.interp, CheckerSpec.holds, JsonValidators.maxItems,
        mkResult_eq_none_iff, bne_iff_ne]
    | uniqueItems unique =>
      cases unique <;>
        simp [CheckerSpec.interp, CheckerSpec.holds, JsonValidators.uniqueItems,
          JsonValidators.nullValidator, mkResult_eq_none_iff, bne_iff_ne]
    | allOf l =>
      have IH : ∀ t ∈ l, (CheckerSpec.interp t x false).isNone = CheckerSpec.holds t x false :=
        fun t ht => bool_eq_of_iff (interp_holds t x false)
      rw [CheckerSpec.interp, CheckerSpec.holds, interpList_eq_map, holdsList_eq_map]
      rw [show JsonValidators.composeAllOf (l.map CheckerSpec.interp) x invert =
        mkResult ((l.map CheckerSpec.interp).all (fun v => (v x false).isNone)) invert
          (List.append
            (mergeReports (failedReports (execValidators (l.map CheckerSpec.interp) x)))
            [("allOf", .bool (!invert))]) from rfl]
      rw [mkResult_eq_none_iff, bne_iff_ne, map_all_eq, map_all_eq,
        all_congr_mem (fun t ht => (IH t ht).trans rfl)]
      exact Iff.rfl
    | anyOf l =>
      have IH : ∀ t ∈ l, (CheckerSpec.interp t x false).isNone = CheckerSpec.holds t x false :=
        fun t ht => bool_eq_of_iff (interp_holds t x false)
      rw [CheckerSpec.interp, CheckerSpec.holds, interpList_eq_map, holdsList_eq_map]
      rw [show JsonValidators.composeAnyOf (l.map CheckerSpec.interp) x invert =
        mkResult ((l.map CheckerSpec.interp).any (fun v => (v x false).isNone)) invert
          (List.append
            (mergeReports (failedReports (execValidators (l.map CheckerSpec.interp) x)))
            [("anyOf", .bool (!invert))]) from rfl]
      rw [mkResult_eq_none_iff, bne_iff_ne, map_any_eq, map_any_eq,
        any_congr_mem (fun t ht => (IH t ht).trans rfl)]
      exact Iff.rfl
    | oneOf l =>
      have IH : ∀ t ∈ l, (CheckerSpec.interp t x false).isNone = CheckerSpec.holds t x false :=
        fun t ht => bool_eq_of_iff (interp_holds t x false)
      rw [CheckerSpec.interp, CheckerSpec.holds, interpList_eq_map, holdsList_eq_map]
      rw [show JsonValidators.composeOneOf (l.map CheckerSpec.interp) x invert =
        mkResult (validCount (l.map CheckerSpec.interp) x == 1) invert
          (List.append
            (mergeReports (failedReports (execValidators (l.map CheckerSpec.interp) x)))
            [("oneOf", .obj (.cons "validCount"
                (.num (validCount (l.map CheckerSpec.interp) x : Rat))
                (.cons "validIndices"
                  (.arr (validIndices (l.map CheckerSpec.interp) x)) .nil)))]) from rfl]
      rw [mkResult_eq_none_iff, bne_iff_ne]
      have hc : validCount (l.map CheckerSpec.interp) x =
          (l.map (fun s => CheckerSpec.holds s x false)).countP id := by
        rw [validCount, ← List.countP_eq_length_filter, map_countP_eq, map_countP_eq]
        exact countP_congr_mem (fun t ht => (IH t ht).trans rfl)
      rw [hc]
    | notOf s' =>
      have IH := interp_holds s' x (!invert)
      rw [CheckerSpec.interp, CheckerSpec.holds]
      rw [show JsonValidators.composeNot (CheckerSpec.interp s') x invert =
        (match CheckerSpec.interp s' x (!invert) with
          | none => none
          | some _ => some [("not", .bool (!invert))]) from rfl]
      cases hv : CheckerSpec.interp s' x (!invert) with
      | none => simp_all
      | some r => simp_all
    | comp l =>
      have IH : ∀ t ∈ l, (CheckerSpec.interp t x false).isNone = CheckerSpec.holds t x false :=
        fun t ht => bool_eq_of_iff (interp_holds t x false)
      rw [CheckerSpec.interp, CheckerSpec.holds, interpList_eq_map, holdsList_eq_map]
      rw [show JsonValidators.compose (l.map CheckerSpec.interp) x invert =
        mkResult ((l.map CheckerSpec.interp).all (fun v => (v x false).isNone)) invert
          (List.append
            (mergeReports (failedReports (execValidators (l.map CheckerSpec.interp) x)))
            [("compose", .bool (!invert))]) from rfl]
      rw [mkResult_eq_none_iff, bne_iff_ne, map_all_eq, map_all_eq,
        all_congr_mem (fun t ht => (IH t ht).trans rfl)]
      exact Iff.rfl
termination_by s _ _ => sizeOf s
decreasing_by
  all_goals simp_wf
  all_goals try (have hlt := List.sizeOf_lt_of_mem ht; omega)

theorem bne_flip (v : Bool) : (v != true) = !(v != false) := by cases v <;> rfl

theorem holds_flip : ∀ (s : CheckerSpec) (x : AbstractControl),
    CheckerSpec.enabled s = true →
    CheckerSpec.holds s x true = !(CheckerSpec.holds s x false)
  | s, x => by
    intro h
    cases s with
    | required input =>
      cases input with
      | none => simp [CheckerSpec.holds, bne_flip]
      | some b =>
        cases b with
        | false => exact absurd h (by simp [CheckerSpec.enabled])
        | true => simp [CheckerSpec.holds, bne_flip]
    | typeCheck arg => simp [CheckerSpec.holds, bne_flip]
    | enum vals => simp [CheckerSpec.holds, bne_flip]
    | const v => simp [CheckerSpec.holds, bne_flip]
    | minLength n => simp [CheckerSpec.holds, bne_flip]
    | maxLength n => simp [CheckerSpec.holds, bne_flip]
    | pattern p whole => simp [CheckerSpec.holds, bne_flip]
    | format tag => simp [CheckerSpec.holds, bne_flip]
    | minimum m excl => simp [CheckerSpec.holds, bne_flip]
    | maximum m excl => simp [CheckerSpec.holds, bne_flip]
    | multipleOf m => simp [CheckerSpec.holds, bne_flip]
    | minProperties n => simp [CheckerSpec.holds, bne_flip]
    | maxProperties n => simp [CheckerSpec.holds, bne_flip]
    | minItems n => simp [CheckerSpec.holds, bne_flip]
    | maxItems n => simp [CheckerSpec.holds, bne_flip]
    | uniqueItems unique =>
      cases unique with
      | false => exact absurd h (by simp [CheckerSpec.enabled])
      | true => simp [CheckerSpec.holds, bne_flip]
    | allOf l => simp [CheckerSpec.holds, bne_flip]
    | anyOf l => simp [CheckerSpec.holds, bne_flip]
    | oneOf l => simp [CheckerSpec.holds, bne_flip]
    | comp l => simp [CheckerSpec.holds, bne_flip]
    | notOf s' =>
      have he : CheckerSpec.enabled s' = true := by
        simpa [CheckerSpec.enabled] using h
      have IH := holds_flip s' x he
      simp only [CheckerSpec.holds, Bool.not_true, Bool.not_false]
      rw [IH, Bool.not_not]
termination_by s _ => sizeOf s
decreasing_by
  all_goals simp_wf

/-! ### Claim theorems -/

/-- C1 counterexample: the checker produced by the factory `uniqueItems false`
is the disabled no-op validator, which returns null under both invert flags
on a control holding a duplicated sequence, so the invert flag is not a
strict complement of validity for every factory-produced checker. -/
theorem c1_counterexample :
    ¬ ((CheckerSpec.interp (.uniqueItems false)
          ⟨.arr (.cons (.num 1) (.cons (.num 1) .nil))⟩ true = none) ↔
        (CheckerSpec.interp (.uniqueItems false)
          ⟨.arr (.cons (.num 1) (.cons (.num 1) .nil))⟩ false ≠ none)) := by
  decide

/-- C1 (amended): for every checker built from the keyword validator
factories and combinators in which no disabled ("false to disable") form
occurs, and every control, calling the checker with invert true is valid
(null) exactly when calling it with invert false is invalid (non-null): the
invert flag is a strict boolean complement of validity, report contents
aside. -/
theorem c1_invert_complement (s : CheckerSpec) (x : AbstractControl)
    (h : CheckerSpec.enabled s = true) :
    (CheckerSpec.interp s x true = none ↔ CheckerSpec.interp s x false ≠ none) := by
  rw [interp_holds s x true, holds_flip s x h]
  constructor
  · intro hb hn
    have hh := (interp_holds s x false).mp hn
    rw [hh] at hb
    simp at hb
  · intro hne
    have hh : CheckerSpec.holds s x false = false := by
      cases hv : CheckerSpec.holds s x false
      · rfl
      · exact absurd ((interp_holds s x false).mpr hv) hne
    rw [hh]
    rfl

/-- C1 witness: the `minLength 3` checker on a control holding "ab" is
invalid with invert off, hence valid with invert on. -/
theorem c1_witness :
    CheckerSpec.interp (.minLength 3) ⟨.str "ab"⟩ true = none :=
  (c1_invert_complement (.minLength 3) ⟨.str "ab"⟩ (by decide)).mpr (by decide)

/-- C10: the checker produced by `uniqueItems false` (the disabled form)
returns null for every control and every invert flag, including controls
whose sequence value contains duplicate items. -/
theorem c10_uniqueItems_disabled_always_valid :
    ∀ (x : AbstractControl) (invert : Bool),
      JsonValidators.uniqueItems false x invert = none := by
  intro x invert
  rfl

theorem mkResult_some_ne_nil {v i : Bool} {r r' : ErrorReport} (hne : r ≠ [])
    (h : mkResult v i r = some r') : r' ≠ [] := by
  rw [mkResult_eq_some h]
  exact hne

/-- C9: for every checker built from the keyword validator factories and
combinators, on every control and invert flag, a returned report is
non-empty whenever it is non-null, and a null return holds exactly when the
value is valid under that checker's semantics (`CheckerSpec.holds`). -/
theorem c9_reports_nonempty_null_means_valid :
    (∀ (s : CheckerSpec) (x : AbstractControl) (invert : Bool) (r : ErrorReport),
        CheckerSpec.interp s x invert = some r → r ≠ []) ∧
    (∀ (s : CheckerSpec) (x : AbstractControl) (invert : Bool),
        (CheckerSpec.interp s x invert = none ↔ CheckerSpec.holds s x invert = true)) := by
  constructor
  · intro s x invert r hr
    cases s with
    | required input =>
      rw [CheckerSpec.interp] at hr
      cases input with
      | none => exact mkResult_some_ne_nil (List.cons_ne_nil _ _) hr
      | some b =>
        cases b with
        | true => exact mkResult_some_ne_nil (List.cons_ne_nil _ _) hr
        | false =>
          exact absurd hr (by simp [JsonValidators.requiredValidatorFor,
            JsonValidators.nullValidator])
    | typeCheck arg =>
      rw [CheckerSpec.interp] at hr
      exact mkResult_some_ne_nil (List.cons_ne_nil _ _) hr
    | enum vals =>
      rw [CheckerSpec.interp] at hr
      exact mkResult_some_ne_nil (List.cons_ne_nil _ _) hr
    | const v =>
      rw [CheckerSpec.interp] at hr
      exact mkResult_some_ne_nil (List.cons_ne_nil _ _) hr
    | minLength n =>
      rw [CheckerSpec.interp] at hr
      exact mkResult_some_ne_nil (List.cons_ne_nil _ _) hr
    | maxLength n =>
      rw [CheckerSpec.interp] at hr
      exact mkResult_some_ne_nil (List.cons_ne_nil _ _) hr
    | pattern p whole =>
      rw [CheckerSpec.interp] at hr
      exact mkResult_some_ne_nil (List.cons_ne_nil _ _) hr
    | format tag =>
      rw [CheckerSpec.interp] at hr
      exact mkResult_some_ne_nil (List.cons_ne_nil _ _) hr
    | minimum m excl =>
      rw [CheckerSpec.interp] at hr
      exact mkResult_some_ne_nil (List.cons_ne_nil _ _) hr
    | maximum m excl =>
      rw [CheckerSpec.interp] at hr
      exact mkResult_some_ne_nil (List.cons_ne_nil _ _) hr
    | multipleOf m =>
      rw [CheckerSpec.interp] at hr
      exact mkResult_some_ne_nil (List.cons_ne_nil _ _) hr
    | minProperties n =>
      rw [CheckerSpec.interp] at hr
      exact mkResult_some_ne_nil (List.cons_ne_nil _ _) hr
    | maxProperties n =>
      rw [CheckerSpec.interp] at hr
      exact mkResult_some_ne_nil (List.cons_ne_nil _ _) hr
    | minItems n =>
      rw [CheckerSpec.interp] at hr
      exact mkResult_some_ne_nil (List.cons_ne_nil _ _) hr
    | maxItems n =>
      rw [CheckerSpec.interp] at hr
      exact mkResult_some_ne_nil (List.cons_ne_nil _ _) hr
    | uniqueItems unique =>
      rw [CheckerSpec.interp] at hr
      cases unique with
      | true => exact mkResult_some_ne_nil (List.cons_ne_nil _ _) hr
      | false =>
        exact absurd hr (by simp [JsonValidators.uniqueItems, JsonValidators.nullValidator])
    | allOf l =>
      rw [CheckerSpec.interp] at hr
      exact mkResult_some_ne_nil (by simp) hr
    | anyOf l =>
      rw [CheckerSpec.interp] at hr
      exact mkResult_some_ne_nil (by simp) hr
    | oneOf l =>
      rw [CheckerSpec.interp] at hr
      exact mkResult_some_ne_nil (by simp) hr
    | comp l =>
      rw [CheckerSpec.interp] at hr
      exact mkResult_some_ne_nil (by simp) hr
    | notOf s' =>
      rw [CheckerSpec.interp] at hr
      cases hv : CheckerSpec.interp s' x (!invert) with
      | none =>
        rw [show JsonValidators.composeNot (CheckerSpec.interp s') x invert =
          (match CheckerSpec.interp s' x (!invert) with
            | none => none
            | some _ => some [("not", .bool (!invert))]) from rfl, hv] at hr
        exact absurd hr (by simp)
      | some q =>
        rw [show JsonValidators.composeNot (CheckerSpec.interp s') x invert =
          (match CheckerSpec.interp s' x (!invert) with
            | none => none
            | some _ => some [("not", .bool (!invert))]) from rfl, hv] at hr
        injection hr with hr
        rw [← hr]
        exact List.cons_ne_nil _ _
  · exact interp_holds

/-- C9 witness: the required checker on an empty-string control returns the
concrete non-null report, which is non-empty. -/
theorem c9_witness : ([("required", JsonValue.bool true)] : ErrorReport) ≠ [] :=
  c9_reports_nonempty_null_means_valid.1 (.required none) ⟨.str ""⟩ false _ (by decide)

/-- C2: the checker produced by `composeOneOf` returns null exactly when
exactly one of the input checkers returns null on the control; whenever it
returns a non-null report, that report contains the synthesizing `oneOf`
entry recording how many checkers passed and which ones. -/
theorem c2_composeOneOf_exactly_one (vs : List IValidatorFn) (x : AbstractControl) :
    (JsonValidators.composeOneOf vs x false = none ↔
      ∃! i : Fin vs.length, vs.get i x false = none) ∧
    (∀ r : ErrorReport, JsonValidators.composeOneOf vs x false = some r →
      ("oneOf", JsonValue.obj (.cons "validCount" (.num (validCount vs x : Rat))
        (.cons "validIndices" (.arr (validIndices vs x)) .nil))) ∈ r) := by
  constructor
  · rw [show JsonValidators.composeOneOf vs x false =
      mkResult (validCount vs x == 1) false
        (List.append (mergeReports (failedReports (execValidators vs x)))
          [("oneOf", .obj (.cons "validCount" (.num (validCount vs x : Rat))
              (.cons "validIndices" (.arr (validIndices vs x)) .nil)))]) from rfl,
      mkResult_eq_none_iff]
    rw [show ((validCount vs x == 1) ≠ false) ↔ ((validCount vs x == 1) = true) from
      Bool.ne_false_iff, beq_iff_eq, validCount, filter_length_eq_one_iff]
    exact existsUnique_congr (fun i => by simp)
  · intro r hr
    rw [mkResult_eq_some hr]
    exact List.mem_append_right _ (List.mem_singleton.mpr rfl)

/-- C2 witness: `composeOneOf` over the `string` and `number` type checkers
accepts the control holding the string "x", on which exactly one branch is
valid. -/
theorem c2_witness :
    JsonValidators.composeOneOf
      [JsonValidators.type (.one .string), JsonValidators.type (.one .number)]
      ⟨.str "x"⟩ false = none :=
  (c2_composeOneOf_exactly_one _ _).1.mpr ⟨⟨0, by decide⟩, by decide, by decide⟩

/-- C3 counterexample: called with the boolean `false`, `required` does not
return the required-checker — it returns the disabled no-op validator, which
accepts the empty-string control the required-checker rejects. -/
theorem c3_counterexample :
    JsonValidators.required (.flag (some false)) ≠
      .validator JsonValidators.requiredChecker := by
  intro h
  rw [show JsonValidators.required (.flag (some false)) =
    RequiredResult.validator (JsonValidators.requiredValidatorFor (some false)) from rfl] at h
  injection h with h2
  exact absurd (congrFun (congrFun h2 ⟨.str ""⟩) false) (by decide)

/-- C3 (amended): `required` is overloaded by argument shape — with no
argument or `true` it returns the required-checker unexecuted, with `false`
it returns the disabled no-op validator unexecuted ("false to disable");
called directly with a control it executes immediately, returning a
non-null required-violation report exactly when the control's value is the
empty string, null or undefined, and null otherwise. -/
theorem c3_required_overloading :
    (∀ input : Option Bool,
        JsonValidators.required (.flag input) =
          .validator (if input.getD true then JsonValidators.requiredChecker
            else JsonValidators.nullValidator)) ∧
    (∀ c : AbstractControl,
        JsonValidators.required (.control c) =
          .report (if hasValue c.value then none
            else some [("required", .bool true)])) := by
  constructor
  · intro input
    rfl
  · intro c
    rw [JsonValidators.required]
    cases hv : hasValue c.value <;>
      simp [JsonValidators.requiredChecker, mkResult, hv]

/-- C4: the pattern validator matches partially by default — on a string
control it accepts whenever the pattern occurs anywhere inside the value —
while passing `true` as the second argument anchors the pattern so that,
for a non-empty value, only a whole-string match is valid; in particular
`pattern "bc"` accepts "abcd" and `pattern "bc" true` rejects it. -/
theorem c4_pattern_partial_vs_whole :
    (∀ p v : String, (∃ l r, v.data = l ++ p.data ++ r) →
        JsonValidators.pattern p false ⟨.str v⟩ false = none) ∧
    (∀ p v : String, v ≠ "" →
        (JsonValidators.pattern p true ⟨.str v⟩ false = none ↔ v = p)) ∧
    JsonValidators.pattern "bc" false ⟨.str "abcd"⟩ false = none ∧
    JsonValidators.pattern "bc" true ⟨.str "abcd"⟩ false ≠ none := by
  refine ⟨?_, ?_, by decide, by decide⟩
  · intro p v hocc
    have hp : patternValid p false (.str v) = true := by
      unfold patternValid
      simp [(occursIn_iff p.data v.data).mpr hocc]
    simp [JsonValidators.pattern, mkResult, hp]
  · intro p v hv
    rw [show JsonValidators.pattern p true ⟨.str v⟩ false =
      mkResult (patternValid p true (.str v)) false
        [("pattern", .obj (.cons "requiredPattern" (.str p)
            (.cons "currentValue" (.str v) .nil)))] from rfl,
      mkResult_eq_none_iff]
    unfold patternValid
    simp [isEmptyValue, hv]

/-- C4 witness: the pattern "bc" occurs inside "xbcy", so the default
(partial-match) checker accepts it. -/
theorem c4_witness :
    JsonValidators.pattern "bc" false ⟨.str "xbcy"⟩ false = none :=
  c4_pattern_partial_vs_whole.1 "bc" "xbcy" ⟨['x'], ['y'], by decide⟩

/-- C5 counterexample: the enum checker accepts a control holding the empty
string (an absent/empty value) even though the empty string is loosely
equal to no entry of the allowed set, so acceptance is not equivalent to
loose equality with some entry. -/
theorem c5_counterexample :
    JsonValidators.enum [.num 1] ⟨.str ""⟩ false = none ∧
    ¬ ∃ a ∈ [JsonValue.num 1], LooselyEqual a (.str "") := by
  constructor
  · decide
  · rintro ⟨a, ha, hla⟩
    simp at ha
    subst ha
    cases hla with
    | numStr s n h => exact absurd h (by decide)

/-- C5 (amended): for a control whose value is not absent/empty, the enum
checker accepts exactly when the value is loosely equal — after the
enumerated string-to-number, string-to-boolean and string-to-null coercions
— to some entry of the allowed set; absent/empty values are always accepted
per the absent-data contract.  In particular `enum [1, "2", true]` accepts
the string "1", the number 2 and the string "true". -/
theorem c5_enum_loose_coercion :
    (∀ (vals : List JsonValue) (x : AbstractControl), isEmptyValue x.value = false →
        (JsonValidators.enum vals x false = none ↔ ∃ a ∈ vals, LooselyEqual a x.value)) ∧
    JsonValidators.enum [.num 1, .str "2", .bool true] ⟨.str "1"⟩ false = none ∧
    JsonValidators.enum [.num 1, .str "2", .bool true] ⟨.num 2⟩ false = none ∧
    JsonValidators.enum [.num 1, .str "2", .bool true] ⟨.str "true"⟩ false = none := by
  refine ⟨?_, by decide, by decide, by decide⟩
  · intro vals x hne
    rw [show JsonValidators.enum vals x false =
      mkResult (enumValid vals x.value) false
        [("enum", .obj (.cons "allowedValues" (.arr (JsonArray.ofList vals))
            (.cons "currentValue" x.value .nil)))] from rfl,
      mkResult_eq_none_iff]
    unfold enumValid
    rw [hne]
    simp [List.any_eq_true, looseEq_iff]

/-- C5 witness: the singleton enum over the number 1 accepts the control
holding the number 1, which is loosely (indeed structurally) equal to it. -/
theorem c5_witness :
    JsonValidators.enum [.num 1] ⟨.num 1⟩ false = none :=
  (c5_enum_loose_coercion.1 [.num 1] ⟨.num 1⟩ (by decide)).mpr
    ⟨.num 1, by simp, .refl _⟩

/-- C6: the convenience validators delegate to their JSON Schema
counterparts — `min n` to `minimum n`, `max n` to `maximum n`,
`requiredTrue` to `const true` and `email` to `format "email"` — so each
pair returns the same validity on every control. -/
theorem c6_alias_equivalence :
    (∀ (n : Rat) (c : AbstractControl),
        (JsonValidators.min n c = none ↔ JsonValidators.minimum n false c false = none)) ∧
    (∀ (n : Rat) (c : AbstractControl),
        (JsonValidators.max n c = none ↔ JsonValidators.maximum n false c false = none)) ∧
    (∀ c : AbstractControl,
        (JsonValidators.requiredTrue c = none ↔
          JsonValidators.const (.bool true) c false = none)) ∧
    (∀ c : AbstractControl,
        (JsonValidators.email c = none ↔ JsonValidators.format "email" c false = none)) :=
  ⟨fun _ _ => Iff.rfl, fun _ _ => Iff.rfl, fun _ => Iff.rfl, fun _ => Iff.rfl⟩

/-- C7: the `minLength` and `maxLength` validators only constrain string
values — for every control whose value is not a string, both checkers
return null for every required length. -/
theorem c7_length_validators_fail_open :
    ∀ (n : Nat) (x : AbstractControl), (∀ s : String, x.value ≠ .str s) →
      JsonValidators.minLength n x false = none ∧
        JsonValidators.maxLength n x false = none := by
  intro n x hns
  have h1 : minLengthValid n x.value = true := by
    unfold minLengthValid
    cases hv : x.value <;> simp_all [isEmptyValue]
  have h2 : maxLengthValid n x.value = true := by
    unfold maxLengthValid
    cases hv : x.value <;> simp_all [isEmptyValue]
  exact ⟨by simp [JsonValidators.minLength, mkResult, h1],
    by simp [JsonValidators.maxLength, mkResult, h2]⟩

/-- C7 witness: `minLength 3` and `maxLength 3` accept the control holding
the (non-string) number 42. -/
theorem c7_witness :
    JsonValidators.minLength 3 ⟨.num 42⟩ false = none ∧
      JsonValidators.maxLength 3 ⟨.num 42⟩ false = none :=
  c7_length_validators_fail_open 3 ⟨.num 42⟩ (fun _ h => JsonValue.noConfusion h)

/-- C8: for any format tag outside the enumerated set
`date-time, email, hostname, ipv4, ipv6, uri, url, color`, the checker
produced by `format` returns null (treated as always valid) for every
control value; never throwing is immediate since the checker is a total
function. -/
theorem c8_unknown_format_fails_open :
    ∀ (tag : String) (x : AbstractControl), knownFormats.contains tag = false →
      JsonValidators.format tag x false = none := by
  intro tag x h
  have hv : formatValid tag x.value = true := by
    unfold formatValid
    rw [h]
    simp
  simp [JsonValidators.format, mkResult, hv]

/-- C8 witness: the unrecognized format tag "uuid" is treated as valid on an
arbitrary string control. -/
theorem c8_witness : JsonValidators.format "uuid" ⟨.str "whatever"⟩ false = none :=
  c8_unknown_format_fails_open "uuid" ⟨.str "whatever"⟩ (by decide)
